import Mathlib

/-!
Shallow embedding of `async-graphql-parser/src/value.rs`: the GraphQL `Value`
data model together with its equality protocol (`PartialEq for Value`), its
textual rendering (`Display for Value` and `write_quoted`), the two JSON
conversions (`From<Value> for serde_json::Value` and the converse), the serde
`Serialize` implementation, and duplication of the `Upload` payload
(`Clone for UploadValue`).

Maps (`BTreeMap<String, _>` and `serde_json::Map`, which defaults to a
`BTreeMap`) are represented by their association lists of entries; the
`BTreeMap` invariant (keys strictly sorted, hence unique) is the
well-formedness predicate `wfV` below, assumed where a statement needs it.
-/

namespace AsyncGraphql

/-- Embedding of `serde_json::Number` (internal enum `N`): `PosInt` holds a
`u64`, `NegInt` a negative `i64`, and `Float` a finite `f64`, which we
represent by its exact rational value (a finite double is a rational, and
`f64` equality on the finite doubles that `serde_json` stores coincides with
equality of those rationals; `serde_json` never stores NaN or infinities).
The derived decidable equality coincides with serde_json's `PartialEq for N`:
same-constructor payload equality, distinct constructors never equal. -/
inductive N where
  | PosInt : Nat → N
  | NegInt : Int → N
  | Float : ℚ → N
deriving DecidableEq, Repr

/-- Embedding of `std::fs::File` as used here: the only operation the source
performs on the handle is `try_clone`, so a handle is modelled by the outcome
that duplicating it would have — either an I/O error (carried as its message
string) or a fresh independent handle. -/
inductive File where
  | handle : Except String File → File

/-- Outcome of `File::try_clone`: the duplication outcome stored in the
handle. -/
def File.try_clone : File → Except String File
  | .handle r => r

/-- Embedding of `UploadValue`: filename, optional content type, and the
content handle. -/
structure UploadValue where
  filename : String
  content_type : Option String
  content : File

/-- Embedding of `Clone for UploadValue`. The source runs
`self.content.try_clone().unwrap()`: on failure `unwrap` panics with the I/O
error, which we model as propagating `Except.error`; on success the clone
carries the same filename and content type and the duplicated handle. -/
def UploadValue.clone (u : UploadValue) : Except String UploadValue :=
  match u.content.try_clone with
  | .error e => .error e
  | .ok f => .ok { filename := u.filename, content_type := u.content_type, content := f }

/-- Embedding of the GraphQL `Value` enum. `Object` is the entry list of a
`BTreeMap<String, Value>` (sorted unique keys when well formed, see `wfV`). -/
inductive Value where
  | Null : Value
  | Variable : String → Value
  | Number : N → Value
  | String : String → Value
  | Boolean : Bool → Value
  | Enum : String → Value
  | List : List Value → Value
  | Object : List (String × Value) → Value
  | Upload : UploadValue → Value

/-- Embedding of `serde_json::Value`. `Object` is the entry list of a
`serde_json::Map` (a `BTreeMap` under default features). -/
inductive Json where
  | Null : Json
  | Bool : Bool → Json
  | Number : N → Json
  | String : String → Json
  | Array : List Json → Json
  | Object : List (String × Json) → Json

mutual

/-- Embedding of `PartialEq for Value` (`eq`): same-variant structural
comparison, `Upload` compared by filename only, distinct variants unequal. -/
def eqV : Value → Value → Bool
  | .Variable a, .Variable b => a == b
  | .Number a, .Number b => a == b
  | .String a, .String b => a == b
  | .Boolean a, .Boolean b => a == b
  | .Null, .Null => true
  | .Enum a, .Enum b => a == b
  | .List a, .List b => a.length == b.length && eqL a b
  | .Object a, .Object b => a.length == b.length && eqO a b
  | .Upload a, .Upload b => a.filename == b.filename
  | _, _ => false

/-- The index loop of the `List` arm of `PartialEq for Value`: pairwise
element comparison (the arm runs it only after the length check). -/
def eqL : List Value → List Value → Bool
  | [], [] => true
  | x :: xs, y :: ys => eqV x y && eqL xs ys
  | _, _ => false

/-- The key loop of the `Object` arm of `PartialEq for Value`: every entry of
the first map must have a key present in the second with an equal value. -/
def eqO : List (String × Value) → List (String × Value) → Bool
  | [], _ => true
  | (k, v) :: rest, b =>
    (match b.lookup k with
     | some w => eqV v w
     | none => false) && eqO rest b

end

/-- Embedding of one iteration of the escaping loop in `write_quoted`:
carriage return, line feed and tab pass through literally, a double quote and
a backslash are written as themselves (no backslash escape), characters from
U+0020 to U+FFFF pass through literally, and anything else becomes a
backslash-u escape built from the DECIMAL digits of the code point formatted
into a minimum-width-4 zero-padded field (Rust `{:04}` on `c as u32`). -/
def escapeChar (c : Char) : String :=
  if c = '\r' then "\r"
  else if c = '\n' then "\n"
  else if c = '\t' then "\t"
  else if c = '"' then "\""
  else if c = '\\' then "\\"
  else if 0x20 ≤ c.toNat ∧ c.toNat ≤ 0xFFFF then String.singleton c
  else "\\u" ++ String.mk (List.replicate (4 - (Nat.repr c.toNat).length) '0') ++ Nat.repr c.toNat

/-- Embedding of `write_quoted`: a double quote, the escaped characters, a
closing double quote. -/
def write_quoted (s : String) : String :=
  "\"" ++ String.join (s.data.map escapeChar) ++ "\""

/-- Embedding of `Display for serde_json::Number` at the precision the claims
need: integers print in decimal. The `ryu` shortest-round-trip formatting of
a finite double is outside the embedding; the `Float` arm prints the exact
rational value instead, and no claim depends on that arm. -/
def numToString : N → String
  | .PosInt n => Nat.repr n
  | .NegInt i => Int.repr i
  | .Float q => Int.repr q.num ++ (if q.den = 1 then "" else "/" ++ Nat.repr q.den)

mutual

/-- Embedding of `Display for Value`. -/
def displayV : Value → String
  | .Variable name => "$" ++ name
  | .Number num => numToString num
  | .String val => write_quoted val
  | .Boolean true => "true"
  | .Boolean false => "false"
  | .Null => "null"
  | .Enum name => name
  | .List items => "[" ++ displayItems items ++ "]"
  | .Object fields => "\x7b" ++ displayFields true fields ++ "\x7d"
  | .Upload _ => "null"

/-- The `List` arm's loop: first element bare, the rest each preceded by
a comma and a space; the empty list contributes nothing. -/
def displayItems : List Value → String
  | [] => ""
  | x :: rest => displayV x ++ displayTail rest

/-- Remaining elements of a nonempty list, each preceded by a comma and a
space. -/
def displayTail : List Value → String
  | [] => ""
  | x :: rest => ", " ++ displayV x ++ displayTail rest

/-- The `Object` arm's loop with its `first` flag: each entry after the first
is preceded by a comma and a space, and every entry prints as the bare key,
a colon and a space, then the value. -/
def displayFields : Bool → List (String × Value) → String
  | _, [] => ""
  | first, (name, value) :: rest =>
    (if first then "" else ", ") ++ name ++ ": " ++ displayV value ++ displayFields false rest

end

mutual

/-- Embedding of `From<Value> for serde_json::Value`. -/
def valueToJson : Value → Json
  | .Null => .Null
  | .Variable name => .String name
  | .Number n => .Number n
  | .String s => .String s
  | .Boolean v => .Bool v
  | .Enum e => .String e
  | .List values => .Array (valueListToJson values)
  | .Object obj => .Object (valueObjToJson obj)
  | .Upload _ => .Null

/-- The `List` arm's `map(Into::into).collect()`. -/
def valueListToJson : List Value → List Json
  | [] => []
  | x :: rest => valueToJson x :: valueListToJson rest

/-- The `Object` arm's entrywise conversion collected into a
`serde_json::Map`; collecting already-sorted unique keys into a `BTreeMap`
keeps the entry list unchanged, so the collect is entrywise. -/
def valueObjToJson : List (String × Value) → List (String × Json)
  | [] => []
  | (name, value) :: rest => (name, valueToJson value) :: valueObjToJson rest

end

mutual

/-- Embedding of `From<serde_json::Value> for Value`. -/
def jsonToValue : Json → Value
  | .Null => .Null
  | .Bool n => .Boolean n
  | .Number n => .Number n
  | .String s => .String s
  | .Array ls => .List (jsonListToValue ls)
  | .Object obj => .Object (jsonObjToValue obj)

/-- The `Array` arm's `map(Into::into).collect()`. -/
def jsonListToValue : List Json → List Value
  | [] => []
  | x :: rest => jsonToValue x :: jsonListToValue rest

/-- The `Object` arm's entrywise conversion collected into a
`BTreeMap<String, Value>`; the source map is itself a `BTreeMap`, so the
collect is entrywise. -/
def jsonObjToValue : List (String × Json) → List (String × Value)
  | [] => []
  | (name, value) :: rest => (name, jsonToValue value) :: jsonObjToValue rest

end

mutual

/-- Embedding of `Serialize for Value` observed through `serde_json`: the
JSON tree the serializer emits (`serialize_none` is JSON null under
`serde_json`). Note the `Variable` arm keeps the `$` marker, unlike
`From<Value> for serde_json::Value`. -/
def serdeToJson : Value → Json
  | .Null => .Null
  | .Variable name => .String ("$" ++ name)
  | .Number value => .Number value
  | .String value => .String value
  | .Boolean value => .Bool value
  | .Enum value => .String value
  | .List value => .Array (serdeListToJson value)
  | .Object value => .Object (serdeObjToJson value)
  | .Upload _ => .Null

/-- The `List` arm's sequence serialization, element by element. -/
def serdeListToJson : List Value → List Json
  | [] => []
  | x :: rest => serdeToJson x :: serdeListToJson rest

/-- The `Object` arm's map serialization, entry by entry. -/
def serdeObjToJson : List (String × Value) → List (String × Json)
  | [] => []
  | (key, value) :: rest => (key, serdeToJson value) :: serdeObjToJson rest

end

/-- Strict sortedness of a key list under the `String` order: the `BTreeMap`
key invariant. Rust orders `String` keys by their UTF-8 bytes, which agrees
with lexicographic code-point order, embedded here as the lexicographic
order on the character lists. -/
def sortedKeys : List String → Bool
  | [] => true
  | [_] => true
  | a :: b :: rest => decide (a.data < b.data) && sortedKeys (b :: rest)

mutual

/-- Well-formedness of a `Value`: every `Object` entry list in the tree is
strictly sorted by key, as a `BTreeMap` guarantees by construction. -/
def wfV : Value → Bool
  | .Null => true
  | .Variable _ => true
  | .Number _ => true
  | .String _ => true
  | .Boolean _ => true
  | .Enum _ => true
  | .List items => wfL items
  | .Object fields => sortedKeys (fields.map Prod.fst) && wfO fields
  | .Upload _ => true

/-- All elements of a list are well formed. -/
def wfL : List Value → Bool
  | [] => true
  | x :: rest => wfV x && wfL rest

/-- All values of an entry list are well formed. -/
def wfO : List (String × Value) → Bool
  | [] => true
  | (_, v) :: rest => wfV v && wfO rest

end

mutual

/-- A `Value` built only from the `Null`, `Boolean`, `Number` and `String`
variants, with `List` and `Object` containing only such values. -/
def jsonSafe : Value → Bool
  | .Null => true
  | .Number _ => true
  | .String _ => true
  | .Boolean _ => true
  | .List items => jsonSafeL items
  | .Object fields => jsonSafeO fields
  | .Variable _ => false
  | .Enum _ => false
  | .Upload _ => false

/-- All elements of a list are JSON-safe. -/
def jsonSafeL : List Value → Bool
  | [] => true
  | x :: rest => jsonSafe x && jsonSafeL rest

/-- All values of an entry list are JSON-safe. -/
def jsonSafeO : List (String × Value) → Bool
  | [] => true
  | (_, v) :: rest => jsonSafe v && jsonSafeO rest

end

/-- Strings joined by a separator, the shape the rendering spec describes. -/
def joinedBy (sep : String) : List String → String
  | [] => ""
  | [x] => x
  | x :: y :: rest => x ++ sep ++ joinedBy sep (y :: rest)

/-- A handle whose duplication fails (for witnesses). -/
def fileA : File := .handle (.error "already closed")

/-- A handle whose duplication succeeds (for witnesses). -/
def fileB : File := .handle (.ok (.handle (.error "later")))

/-- Sample upload (for witnesses). -/
def uploadA : UploadValue := ⟨"avatar.png", none, fileA⟩

/-- Sample upload with the same filename, different content type and content
(for witnesses). -/
def uploadB : UploadValue := ⟨"avatar.png", some "image/png", fileB⟩

/-- Third sample upload with the same filename (for witnesses). -/
def uploadC : UploadValue := ⟨"avatar.png", some "text/plain", fileA⟩

/-- Sample object value (for witnesses). -/
def objA : Value := .Object [("file", .Upload uploadA), ("tag", .String "x")]

/-- Sample object value equal to `objA` under the protocol but not
structurally identical (for witnesses). -/
def objB : Value := .Object [("file", .Upload uploadB), ("tag", .String "x")]

/-- Third sample object value in the same equivalence class (for
witnesses). -/
def objC : Value := .Object [("file", .Upload uploadC), ("tag", .String "x")]

/-- Sample JSON-safe value (for witnesses). -/
def safeSample : Value :=
  .Object [("flag", .Boolean true), ("items", .List [.Number (.PosInt 1), .String "x", .Null])]

section LookupLemmas

variable {β : Type}

theorem lookup_mem {l : List (String × β)} {k : String} {v : β}
    (h : List.lookup k l = some v) : (k, v) ∈ l := by
  induction l with
  | nil => simp [List.lookup] at h
  | cons p rest ih =>
    obtain ⟨a, b⟩ := p
    rw [List.lookup] at h
    by_cases hk : k = a
    · subst hk
      simp at h
      simp [h]
    · rw [beq_false_of_ne hk] at h
      exact List.mem_cons_of_mem _ (ih h)

theorem mem_keys_of_lookup {l : List (String × β)} {k : String} {v : β}
    (h : List.lookup k l = some v) : k ∈ l.map Prod.fst :=
  List.mem_map.mpr ⟨(k, v), lookup_mem h, rfl⟩

theorem lookup_eq_none_of_not_mem_keys {l : List (String × β)} {k : String}
    (h : k ∉ l.map Prod.fst) : List.lookup k l = none := by
  induction l with
  | nil => rfl
  | cons p rest ih =>
    obtain ⟨a, b⟩ := p
    have hka : k ≠ a := fun hk => h (by rw [List.map_cons]; exact List.mem_cons.mpr (Or.inl hk))
    have hrest : k ∉ rest.map Prod.fst :=
      fun hk => h (by rw [List.map_cons]; exact List.mem_cons.mpr (Or.inr hk))
    rw [List.lookup, beq_false_of_ne hka]
    exact ih hrest

theorem lookup_eq_some_of_mem_nodup {l : List (String × β)} {k : String} {v : β}
    (hnd : (l.map Prod.fst).Nodup) (hmem : (k, v) ∈ l) : List.lookup k l = some v := by
  induction l with
  | nil => simp at hmem
  | cons p rest ih =>
    obtain ⟨a, b⟩ := p
    rw [List.map_cons, List.nodup_cons] at hnd
    rcases List.mem_cons.mp hmem with heq | hmem'
    · cases heq
      simp [List.lookup]
    · have hka : k ≠ a := by
        intro hk
        subst hk
        exact hnd.1 (List.mem_map.mpr ⟨(k, v), hmem', rfl⟩)
      rw [List.lookup, beq_false_of_ne hka]
      exact ih hnd.2 hmem'

theorem lookup_isSome_iff {l : List (String × β)} {k : String} :
    (List.lookup k l).isSome = true ↔ k ∈ l.map Prod.fst := by
  constructor
  · intro h
    obtain ⟨v, hv⟩ := Option.isSome_iff_exists.mp h
    exact mem_keys_of_lookup hv
  · intro h
    induction l with
    | nil => simp at h
    | cons p rest ih =>
      obtain ⟨a, b⟩ := p
      rw [List.lookup]
      by_cases hk : k = a
      · subst hk
        simp
      · rw [beq_false_of_ne hk]
        rw [List.map_cons] at h
        rcases List.mem_cons.mp h with h1 | h2
        · exact absurd h1 hk
        · exact ih h2

end LookupLemmas

theorem dataLt_iff {a b : String} : a.data < b.data ↔ a < b := by
  rw [String.lt_iff_toList_lt]
  exact Iff.rfl

theorem sortedKeys_pairwise {l : List String} (h : sortedKeys l = true) :
    l.Pairwise (· < ·) := by
  induction l with
  | nil => exact List.Pairwise.nil
  | cons a rest ih =>
    cases rest with
    | nil => simp
    | cons b rest' =>
      rw [sortedKeys, Bool.and_eq_true, decide_eq_true_eq, dataLt_iff] at h
      have hpb := ih h.2
      refine List.Pairwise.cons ?_ hpb
      intro x hx
      rcases List.mem_cons.mp hx with hxb | hx'
      · exact hxb ▸ h.1
      · exact lt_trans h.1 (List.rel_of_pairwise_cons hpb hx')

theorem nodup_of_sortedKeys {l : List String} (h : sortedKeys l = true) : l.Nodup :=
  (sortedKeys_pairwise h).imp ne_of_lt

theorem value_ind (P : Value → Prop)
    (hNull : P .Null)
    (hVariable : ∀ name, P (.Variable name))
    (hNumber : ∀ n, P (.Number n))
    (hString : ∀ s, P (.String s))
    (hBoolean : ∀ b, P (.Boolean b))
    (hEnum : ∀ name, P (.Enum name))
    (hList : ∀ items, (∀ x ∈ items, P x) → P (.List items))
    (hObject : ∀ fields, (∀ p ∈ fields, P p.2) → P (.Object fields))
    (hUpload : ∀ u, P (.Upload u)) : ∀ v, P v
  | .Null => hNull
  | .Variable name => hVariable name
  | .Number n => hNumber n
  | .String s => hString s
  | .Boolean b => hBoolean b
  | .Enum name => hEnum name
  | .List items => hList items (fun x hx =>
      value_ind P hNull hVariable hNumber hString hBoolean hEnum hList hObject hUpload x)
  | .Object fields => hObject fields (fun p hp =>
      value_ind P hNull hVariable hNumber hString hBoolean hEnum hList hObject hUpload p.2)
  | .Upload u => hUpload u
termination_by v => sizeOf v
decreasing_by
  · have := List.sizeOf_lt_of_mem hx
    simp
    omega
  · have := List.sizeOf_lt_of_mem hp
    obtain ⟨a, b⟩ := p
    simp at this ⊢
    omega

theorem wfL_mem {l : List Value} {x : Value} (h : wfL l = true) (hx : x ∈ l) :
    wfV x = true := by
  induction l with
  | nil => simp at hx
  | cons y rest ih =>
    rw [wfL, Bool.and_eq_true] at h
    rcases List.mem_cons.mp hx with h1 | h2
    · exact h1 ▸ h.1
    · exact ih h.2 h2

theorem wfO_mem {l : List (String × Value)} {p : String × Value} (h : wfO l = true)
    (hp : p ∈ l) : wfV p.2 = true := by
  induction l with
  | nil => simp at hp
  | cons q rest ih =>
    obtain ⟨a, b⟩ := q
    rw [wfO, Bool.and_eq_true] at h
    rcases List.mem_cons.mp hp with h1 | h2
    · subst h1
      exact h.1
    · exact ih h.2 h2

theorem eqL_iff_forall₂ {as bs : List Value} :
    eqL as bs = true ↔ List.Forall₂ (fun x y => eqV x y = true) as bs := by
  induction as generalizing bs with
  | nil => cases bs <;> simp [eqL]
  | cons x xs ih =>
    cases bs with
    | nil => simp [eqL]
    | cons y ys => simp [eqL, ih]

theorem eqO_iff {a b : List (String × Value)} :
    eqO a b = true ↔ ∀ p ∈ a, ∃ w, List.lookup p.1 b = some w ∧ eqV p.2 w = true := by
  induction a with
  | nil => simp [eqO]
  | cons p rest ih =>
    obtain ⟨k, v⟩ := p
    rw [eqO, Bool.and_eq_true, ih]
    constructor
    · rintro ⟨h1, h2⟩ q hq
      rcases List.mem_cons.mp hq with heq | hq'
      · subst heq
        cases hlk : List.lookup k b with
        | none =>
          rw [hlk] at h1
          exact absurd h1 Bool.false_ne_true
        | some w =>
          rw [hlk] at h1
          exact ⟨w, rfl, h1⟩
      · exact h2 q hq'
    · intro h
      constructor
      · obtain ⟨w, hw, he⟩ := h (k, v) (List.mem_cons_self _ _)
        rw [hw]
        exact he
      · intro q hq
        exact h q (List.mem_cons_of_mem _ hq)

theorem eqV_refl : ∀ v, wfV v = true → eqV v v = true := by
  intro v
  induction v using value_ind with
  | hNull => intro _; rfl
  | hVariable name => intro _; simp [eqV]
  | hNumber n => intro _; simp [eqV]
  | hString s => intro _; simp [eqV]
  | hBoolean b => intro _; simp [eqV]
  | hEnum name => intro _; simp [eqV]
  | hUpload u => intro _; simp [eqV]
  | hList items ih =>
    intro hwf
    rw [wfV] at hwf
    rw [eqV, Bool.and_eq_true]
    refine ⟨by simp, ?_⟩
    rw [eqL_iff_forall₂]
    exact List.forall₂_same.mpr fun x hx => ih x hx (wfL_mem hwf hx)
  | hObject fields ih =>
    intro hwf
    rw [wfV, Bool.and_eq_true] at hwf
    rw [eqV, Bool.and_eq_true]
    refine ⟨by simp, ?_⟩
    rw [eqO_iff]
    intro p hp
    obtain ⟨k, v⟩ := p
    exact ⟨v, lookup_eq_some_of_mem_nodup (nodup_of_sortedKeys hwf.1) hp,
      ih (k, v) hp (wfO_mem hwf.2 hp)⟩

theorem eqL_symm_aux :
    ∀ as bs : List Value,
      (∀ x ∈ as, ∀ y, wfV x = true → wfV y = true → eqV x y = true → eqV y x = true) →
      wfL as = true → wfL bs = true → eqL as bs = true → eqL bs as = true := by
  intro as
  induction as with
  | nil => intro bs _ _ _ h; cases bs <;> simp_all [eqL]
  | cons x xs ih =>
    intro bs hsym hwfa hwfb h
    cases bs with
    | nil => simp_all [eqL]
    | cons y ys =>
      rw [eqL, Bool.and_eq_true] at h ⊢
      rw [wfL, Bool.and_eq_true] at hwfa hwfb
      exact ⟨hsym x (List.mem_cons_self _ _) y hwfa.1 hwfb.1 h.1,
        ih ys (fun x' hx' => hsym x' (List.mem_cons_of_mem _ hx')) hwfa.2 hwfb.2 h.2⟩

theorem eqO_symm_aux :
    ∀ A B : List (String × Value),
      (∀ p ∈ A, ∀ w, wfV p.2 = true → wfV w = true → eqV p.2 w = true → eqV w p.2 = true) →
      sortedKeys (A.map Prod.fst) = true → sortedKeys (B.map Prod.fst) = true →
      wfO A = true → wfO B = true →
      A.length = B.length → eqO A B = true → eqO B A = true := by
  intro A B hsym hsA hsB hwA hwB hlen hAB
  have hndA := nodup_of_sortedKeys hsA
  have hndB := nodup_of_sortedKeys hsB
  rw [eqO_iff] at hAB ⊢
  have hsub : A.map Prod.fst ⊆ B.map Prod.fst := by
    intro k hk
    obtain ⟨p, hp, hpk⟩ := List.mem_map.mp hk
    obtain ⟨w, hw, _⟩ := hAB p hp
    exact hpk ▸ mem_keys_of_lookup hw
  have hperm : (A.map Prod.fst).Perm (B.map Prod.fst) :=
    (List.subperm_of_subset hndA hsub).perm_of_length_le
      (by rw [List.length_map, List.length_map, hlen])
  intro q hq
  obtain ⟨k, w⟩ := q
  have hkA : k ∈ A.map Prod.fst := hperm.symm.subset (List.mem_map.mpr ⟨(k, w), hq, rfl⟩)
  obtain ⟨p, hpA, hpk⟩ := List.mem_map.mp hkA
  obtain ⟨k', v⟩ := p
  cases hpk
  obtain ⟨w', hw', hvw'⟩ := hAB (k', v) hpA
  rw [lookup_eq_some_of_mem_nodup hndB hq] at hw'
  injection hw' with hww
  subst hww
  exact ⟨v, lookup_eq_some_of_mem_nodup hndA hpA,
    hsym (k', v) hpA w (wfO_mem hwA hpA) (wfO_mem hwB hq) hvw'⟩

theorem eqV_symm :
    ∀ a b, wfV a = true → wfV b = true → eqV a b = true → eqV b a = true := by
  intro a
  induction a using value_ind with
  | hNull => intro b _ _ hab; cases b <;> simp_all [eqV]
  | hVariable name => intro b _ _ hab; cases b <;> simp_all [eqV]
  | hNumber n => intro b _ _ hab; cases b <;> simp_all [eqV]
  | hString s => intro b _ _ hab; cases b <;> simp_all [eqV]
  | hBoolean bo => intro b _ _ hab; cases b <;> simp_all [eqV]
  | hEnum name => intro b _ _ hab; cases b <;> simp_all [eqV]
  | hUpload u => intro b _ _ hab; cases b <;> simp_all [eqV]
  | hList items ih =>
    intro b hwfa hwfb hab
    cases b <;>
      simp only [eqV, Bool.and_eq_true, beq_iff_eq, Bool.false_eq_true] at hab ⊢
    obtain ⟨hlen, hL⟩ := hab
    rw [wfV] at hwfa hwfb
    exact ⟨hlen.symm, eqL_symm_aux items _ ih hwfa hwfb hL⟩
  | hObject fields ih =>
    intro b hwfa hwfb hab
    cases b <;>
      simp only [eqV, Bool.and_eq_true, beq_iff_eq, Bool.false_eq_true] at hab ⊢
    obtain ⟨hlen, hO⟩ := hab
    rw [wfV, Bool.and_eq_true] at hwfa hwfb
    exact ⟨hlen.symm,
      eqO_symm_aux fields _ ih hwfa.1 hwfb.1 hwfa.2 hwfb.2 hlen hO⟩

theorem eqL_trans_aux :
    ∀ bs as cs : List Value,
      (∀ y ∈ bs, ∀ a c, eqV a y = true → eqV y c = true → eqV a c = true) →
      eqL as bs = true → eqL bs cs = true → eqL as cs = true := by
  intro bs
  induction bs with
  | nil => intro as cs _ h1 h2; cases as <;> cases cs <;> simp_all [eqL]
  | cons y ys ih =>
    intro as cs htr h1 h2
    cases as with
    | nil => simp_all [eqL]
    | cons x xs =>
      cases cs with
      | nil => simp_all [eqL]
      | cons z zs =>
        rw [eqL, Bool.and_eq_true] at h1 h2 ⊢
        exact ⟨htr y (List.mem_cons_self _ _) x z h1.1 h2.1,
          ih xs zs (fun y' hy' => htr y' (List.mem_cons_of_mem _ hy')) h1.2 h2.2⟩

theorem eqO_trans_aux :
    ∀ B A C : List (String × Value),
      (∀ q ∈ B, ∀ a c, eqV a q.2 = true → eqV q.2 c = true → eqV a c = true) →
      eqO A B = true → eqO B C = true → eqO A C = true := by
  intro B A C htr hAB hBC
  rw [eqO_iff] at hAB hBC ⊢
  intro p hp
  obtain ⟨w, hw, hvw⟩ := hAB p hp
  have hwB : (p.1, w) ∈ B := lookup_mem hw
  obtain ⟨u, hu, hwu⟩ := hBC (p.1, w) hwB
  exact ⟨u, hu, htr (p.1, w) hwB p.2 u hvw hwu⟩

theorem eqV_trans :
    ∀ b a c, eqV a b = true → eqV b c = true → eqV a c = true := by
  intro b
  induction b using value_ind with
  | hNull => intro a c h1 h2; cases a <;> cases c <;> simp_all [eqV]
  | hVariable name => intro a c h1 h2; cases a <;> cases c <;> simp_all [eqV]
  | hNumber n => intro a c h1 h2; cases a <;> cases c <;> simp_all [eqV]
  | hString s => intro a c h1 h2; cases a <;> cases c <;> simp_all [eqV]
  | hBoolean bo => intro a c h1 h2; cases a <;> cases c <;> simp_all [eqV]
  | hEnum name => intro a c h1 h2; cases a <;> cases c <;> simp_all [eqV]
  | hUpload u => intro a c h1 h2; cases a <;> cases c <;> simp_all [eqV]
  | hList items ih =>
    intro a c h1 h2
    cases a <;>
      simp only [eqV, Bool.and_eq_true, beq_iff_eq, Bool.false_eq_true] at h1
    cases c <;>
      simp only [eqV, Bool.and_eq_true, beq_iff_eq, Bool.false_eq_true] at h2
    rw [eqV, Bool.and_eq_true]
    exact ⟨by simp [h1.1, h2.1], eqL_trans_aux items _ _ ih h1.2 h2.2⟩
  | hObject fields ih =>
    intro a c h1 h2
    cases a <;>
      simp only [eqV, Bool.and_eq_true, beq_iff_eq, Bool.false_eq_true] at h1
    cases c <;>
      simp only [eqV, Bool.and_eq_true, beq_iff_eq, Bool.false_eq_true] at h2
    rw [eqV, Bool.and_eq_true]
    exact ⟨by simp [h1.1, h2.1], eqO_trans_aux fields _ _ ih h1.2 h2.2⟩

theorem roundtripL_aux :
    ∀ l : List Value,
      (∀ x ∈ l, jsonSafe x = true → jsonToValue (valueToJson x) = x) →
      jsonSafeL l = true → jsonListToValue (valueListToJson l) = l := by
  intro l
  induction l with
  | nil => intro _ _; rfl
  | cons x xs ih =>
    intro hl hs
    rw [jsonSafeL, Bool.and_eq_true] at hs
    rw [valueListToJson, jsonListToValue]
    rw [hl x (List.mem_cons_self _ _) hs.1]
    rw [ih (fun y hy => hl y (List.mem_cons_of_mem _ hy)) hs.2]

theorem roundtripO_aux :
    ∀ l : List (String × Value),
      (∀ p ∈ l, jsonSafe p.2 = true → jsonToValue (valueToJson p.2) = p.2) →
      jsonSafeO l = true → jsonObjToValue (valueObjToJson l) = l := by
  intro l
  induction l with
  | nil => intro _ _; rfl
  | cons p ps ih =>
    intro hl hs
    obtain ⟨k, v⟩ := p
    rw [jsonSafeO, Bool.and_eq_true] at hs
    rw [valueObjToJson, jsonObjToValue]
    rw [hl (k, v) (List.mem_cons_self _ _) hs.1]
    rw [ih (fun q hq => hl q (List.mem_cons_of_mem _ hq)) hs.2]

theorem roundtrip_id : ∀ v, jsonSafe v = true → jsonToValue (valueToJson v) = v := by
  intro v
  induction v using value_ind with
  | hNull => intro _; rfl
  | hNumber n => intro _; rfl
  | hString s => intro _; rfl
  | hBoolean b => intro _; rfl
  | hVariable name => intro h; simp [jsonSafe] at h
  | hEnum name => intro h; simp [jsonSafe] at h
  | hUpload u => intro h; simp [jsonSafe] at h
  | hList items ih =>
    intro h
    rw [jsonSafe] at h
    rw [valueToJson, jsonToValue, roundtripL_aux items ih h]
  | hObject fields ih =>
    intro h
    rw [jsonSafe] at h
    rw [valueToJson, jsonToValue, roundtripO_aux fields ih h]

/-- C1: for every two `Upload` payloads `a` and `b`, the equality protocol
holds on `Upload a` and `Upload b` iff their filenames are equal — the
content and content-type fields are quantified over and never consulted. -/
theorem upload_eq_filename_only (a b : UploadValue) :
    eqV (.Upload a) (.Upload b) = true ↔ a.filename = b.filename := by
  simp [eqV]

/-- Witness for C1: same filename, different content type and content —
equal. -/
theorem upload_eq_filename_only_witness :
    eqV (.Upload uploadA) (.Upload uploadB) = true :=
  (upload_eq_filename_only uploadA uploadB).mpr rfl

/-- C2: a `Value` built only from `Null`, `Boolean`, `Number` and `String`
(plus `List`s and `Object`s of such), converted to a JSON tree and back,
is equal under the equality protocol to the original. -/
theorem json_roundtrip_preserves_safe_values (v : Value)
    (hsafe : jsonSafe v = true) (hwf : wfV v = true) :
    eqV (jsonToValue (valueToJson v)) v = true := by
  rw [roundtrip_id v hsafe]
  exact eqV_refl v hwf

/-- Witness for C2 at a concrete nested value. -/
theorem json_roundtrip_preserves_safe_values_witness :
    eqV (jsonToValue (valueToJson safeSample)) safeSample = true :=
  json_roundtrip_preserves_safe_values safeSample (by decide) (by decide)

/-- C3: `Enum name` crosses to JSON and back as `String name`, which the
equality protocol distinguishes from `Enum name`; likewise `Variable name`
comes back as `String name`, unequal to `Variable name`. -/
theorem enum_variable_json_non_roundtrip (name : String) :
    jsonToValue (valueToJson (.Enum name)) = .String name ∧
    eqV (jsonToValue (valueToJson (.Enum name))) (.Enum name) = false ∧
    jsonToValue (valueToJson (.Variable name)) = .String name ∧
    eqV (jsonToValue (valueToJson (.Variable name))) (.Variable name) = false :=
  ⟨rfl, rfl, rfl, rfl⟩

/-- C5: duplicating an upload propagates the I/O error of a failed
`try_clone` (the source `unwrap`s, surfacing the failure rather than
swallowing it or substituting a default upload). -/
theorem upload_clone_propagates_io_error (u : UploadValue) (e : String)
    (h : u.content.try_clone = Except.error e) :
    u.clone = Except.error e := by
  rw [UploadValue.clone, h]

/-- Witness for C5: a handle that cannot be duplicated. -/
theorem upload_clone_propagates_io_error_witness :
    UploadValue.clone uploadA = Except.error "already closed" :=
  upload_clone_propagates_io_error uploadA "already closed" rfl

/-- C7: converting `Variable name` to a JSON tree yields the JSON string of
the bare name, with the dollar marker dropped. -/
theorem variable_to_json_drops_dollar (name : String) :
    valueToJson (.Variable name) = .String name := rfl

/-- C8: an `Upload` renders as the text `null` and converts to JSON null,
dropping its content and metadata. -/
theorem upload_displays_and_converts_null (u : UploadValue) :
    displayV (.Upload u) = "null" ∧ valueToJson (.Upload u) = .Null :=
  ⟨rfl, rfl⟩

/-- C9: the serde serialization path emits `Variable name` as the JSON
string with the dollar marker retained, while the `From` conversion drops
it, so the two JSON pathways disagree on `Variable`. -/
theorem serialize_variable_disagrees_with_from (name : String) :
    serdeToJson (.Variable name) = .String ("$" ++ name) ∧
    valueToJson (.Variable name) = .String name ∧
    serdeToJson (.Variable name) ≠ valueToJson (.Variable name) := by
  refine ⟨rfl, rfl, ?_⟩
  intro h
  rw [serdeToJson, valueToJson] at h
  injection h with h2
  have h3 := congrArg String.length h2
  rw [String.length_append] at h3
  have h4 : ("$" : String).length = 1 := rfl
  omega

/-- C10: the equality protocol is an equivalence relation on well-formed
values: reflexive (including `Upload`, whose filename equals itself),
symmetric, and transitive. -/
theorem value_equality_equivalence :
    (∀ a, wfV a = true → eqV a a = true) ∧
    (∀ a b, wfV a = true → wfV b = true → eqV a b = true → eqV b a = true) ∧
    (∀ a b c, wfV a = true → wfV b = true → wfV c = true →
      eqV a b = true → eqV b c = true → eqV a c = true) :=
  ⟨eqV_refl, eqV_symm, fun _ b _ _ _ _ hab hbc => eqV_trans b _ _ hab hbc⟩

/-- Witness for C10 on concrete upload-bearing objects. -/
theorem value_equality_equivalence_witness :
    eqV objA objA = true ∧ eqV objB objA = true ∧ eqV objA objC = true :=
  ⟨value_equality_equivalence.1 objA (by decide),
   value_equality_equivalence.2.1 objA objB (by decide) (by decide) (by decide),
   value_equality_equivalence.2.2 objA objB objC (by decide) (by decide) (by decide)
     (by decide) (by decide)⟩

theorem sortedKeys_tail {x : String} {l : List String} (h : sortedKeys (x :: l) = true) :
    sortedKeys l = true := by
  cases l with
  | nil => rfl
  | cons y rest =>
    rw [sortedKeys, Bool.and_eq_true] at h
    exact h.2

theorem displayFields_false_eq (l : List (String × Value)) :
    ∀ e : String, e ++ displayFields false l =
      joinedBy ", " (e :: l.map fun p => p.1 ++ ": " ++ displayV p.2) := by
  induction l with
  | nil =>
    intro e
    have hj : joinedBy ", " [e] = e := rfl
    rw [List.map_nil, hj, displayFields]
    simp
  | cons p rest ih =>
    intro e
    obtain ⟨k, v⟩ := p
    rw [List.map_cons]
    have hj : joinedBy ", "
        (e :: (k ++ ": " ++ displayV v) :: rest.map fun p => p.1 ++ ": " ++ displayV p.2) =
        e ++ ", " ++ joinedBy ", "
          ((k ++ ": " ++ displayV v) :: rest.map fun p => p.1 ++ ": " ++ displayV p.2) := rfl
    rw [hj, ← ih (k ++ ": " ++ displayV v), displayFields]
    simp [String.append_assoc]

theorem display_object_shape (fields : List (String × Value)) :
    displayV (.Object fields) =
      "\x7b" ++ joinedBy ", " (fields.map fun p => p.1 ++ ": " ++ displayV p.2) ++ "\x7d" := by
  cases fields with
  | nil => rfl
  | cons p rest =>
    obtain ⟨k, v⟩ := p
    rw [displayV, displayFields, List.map_cons,
      ← displayFields_false_eq rest (k ++ ": " ++ displayV v)]
    simp [String.append_assoc]

theorem sorted_lookup_ext :
    ∀ a b : List (String × Value),
      sortedKeys (a.map Prod.fst) = true → sortedKeys (b.map Prod.fst) = true →
      (∀ k, List.lookup k a = List.lookup k b) → a = b := by
  intro a
  induction a with
  | nil =>
    intro b _ _ hl
    cases b with
    | nil => rfl
    | cons q rest =>
      obtain ⟨k, w⟩ := q
      have h := hl k
      simp [List.lookup] at h
  | cons p resta ih =>
    intro b hsa hsb hl
    obtain ⟨k, v⟩ := p
    cases b with
    | nil =>
      have h := hl k
      simp [List.lookup] at h
    | cons q restb =>
      obtain ⟨j, w⟩ := q
      rw [List.map_cons] at hsa hsb
      have hpa := sortedKeys_pairwise hsa
      have hpb := sortedKeys_pairwise hsb
      have hka : k ∉ resta.map Prod.fst := fun hm =>
        lt_irrefl k (List.rel_of_pairwise_cons hpa hm)
      have hjb : j ∉ restb.map Prod.fst := fun hm =>
        lt_irrefl j (List.rel_of_pairwise_cons hpb hm)
      have hlk : List.lookup k ((k, v) :: resta) = some v := by simp [List.lookup]
      have hlj : List.lookup j ((j, w) :: restb) = some w := by simp [List.lookup]
      have hkj : k = j := by
        rcases lt_trichotomy k j with hlt | heq | hgt
        · exfalso
          have h2 : List.lookup k ((j, w) :: restb) = some v := by
            rw [← hl k]
            exact hlk
          have hmem := mem_keys_of_lookup h2
          rw [List.map_cons] at hmem
          rcases List.mem_cons.mp hmem with h3 | h4
          · exact ne_of_lt hlt h3
          · exact lt_asymm hlt (List.rel_of_pairwise_cons hpb h4)
        · exact heq
        · exfalso
          have h2 : List.lookup j ((k, v) :: resta) = some w := by
            rw [hl j]
            exact hlj
          have hmem := mem_keys_of_lookup h2
          rw [List.map_cons] at hmem
          rcases List.mem_cons.mp hmem with h3 | h4
          · exact ne_of_lt hgt h3
          · exact lt_asymm hgt (List.rel_of_pairwise_cons hpa h4)
      subst hkj
      have hvw : v = w := by
        have h2 := hl k
        rw [hlk, hlj] at h2
        exact Option.some.inj h2
      subst hvw
      have htl : ∀ m, List.lookup m resta = List.lookup m restb := by
        intro m
        by_cases hm : m = k
        · subst hm
          rw [lookup_eq_none_of_not_mem_keys hka, lookup_eq_none_of_not_mem_keys hjb]
        · have h2 := hl m
          simp only [List.lookup, beq_false_of_ne hm] at h2
          exact h2
      rw [ih restb (sortedKeys_tail hsa) (sortedKeys_tail hsb) htl]

/-- C4 counterexample: the tab character lies outside U+0020..U+FFFF, yet the
renderer emits it literally rather than as a backslash-u escape, so the
claim's escape clause fails at the string made of one tab. -/
theorem string_escape_claim_counterexample :
    ¬(0x20 ≤ ('\t').toNat ∧ ('\t').toNat ≤ 0xFFFF) ∧
    write_quoted "\t" = "\"\t\"" ∧
    write_quoted "\t" ≠ "\"\\u0009\"" :=
  ⟨by decide, by decide, by decide⟩

/-- C4 (amended): quote and backslash pass through without a backslash
escape, every character in U+0020..U+FFFF passes through literally, carriage
return, line feed and tab also pass through literally, and every remaining
character becomes a backslash-u escape of the decimal digits of its code
point zero-padded into a minimum-width-4 field. -/
theorem string_escape_rules :
    (∀ s, write_quoted s = "\"" ++ String.join (s.data.map escapeChar) ++ "\"") ∧
    (∀ c : Char,
      c = '"' ∨ c = '\\' ∨ (0x20 ≤ c.toNat ∧ c.toNat ≤ 0xFFFF) ∨
        c = '\r' ∨ c = '\n' ∨ c = '\t' →
      escapeChar c = String.singleton c) ∧
    (∀ c : Char, ¬(0x20 ≤ c.toNat ∧ c.toNat ≤ 0xFFFF) →
      c ≠ '\r' → c ≠ '\n' → c ≠ '\t' →
      escapeChar c =
        "\\u" ++ String.mk (List.replicate (4 - (Nat.repr c.toNat).length) '0')
          ++ Nat.repr c.toNat) := by
  refine ⟨fun s => rfl, ?_, ?_⟩
  · intro c h
    unfold escapeChar
    split_ifs with h1 h2 h3 h4 h5 h6
    · subst h1; rfl
    · subst h2; rfl
    · subst h3; rfl
    · subst h4; rfl
    · subst h5; rfl
    · rfl
    · rcases h with h | h | h | h | h | h
      · exact absurd h h4
      · exact absurd h h5
      · exact absurd h h6
      · exact absurd h h1
      · exact absurd h h2
      · exact absurd h h3
  · intro c h hr hn ht
    rw [escapeChar, if_neg hr, if_neg hn, if_neg ht]
    split_ifs with hq hb
    · subst hq
      exact absurd (by decide) h
    · subst hb
      exact absurd (by decide) h
    · rfl

/-- Witness for C4 (amended) at concrete characters: a shaped round of the
quoting equation, a pass-through character, and the bell character U+0007,
which escapes to its zero-padded decimal digits. -/
theorem string_escape_rules_witness :
    write_quoted "a" = "\"" ++ String.join ("a".data.map escapeChar) ++ "\"" ∧
    escapeChar 'a' = String.singleton 'a' ∧
    escapeChar '\x07' =
      "\\u" ++ String.mk (List.replicate (4 - (Nat.repr ('\x07').toNat).length) '0')
        ++ Nat.repr ('\x07').toNat :=
  ⟨string_escape_rules.1 "a",
   string_escape_rules.2.1 'a' (by decide),
   string_escape_rules.2.2 '\x07' (by decide) (by decide) (by decide) (by decide)⟩

/-- C6: an `Object` renders as its key-colon-value entries in entry-list
order (sorted order, by the `BTreeMap` invariant) joined by comma-space and
wrapped in braces; rendering is determined by the key-to-value mapping alone
for sorted entry lists; the empty object renders as a brace pair. -/
theorem object_rendering_sorted_deterministic :
    (∀ fields, displayV (.Object fields) =
      "\x7b" ++ joinedBy ", " (fields.map fun p => p.1 ++ ": " ++ displayV p.2) ++ "\x7d") ∧
    (∀ a b : List (String × Value),
      sortedKeys (a.map Prod.fst) = true → sortedKeys (b.map Prod.fst) = true →
      (∀ k, List.lookup k a = List.lookup k b) →
      displayV (.Object a) = displayV (.Object b)) ∧
    displayV (.Object []) = "\x7b\x7d" :=
  ⟨display_object_shape,
   fun a b hsa hsb hl => by rw [sorted_lookup_ext a b hsa hsb hl],
   rfl⟩

/-- Witness for C6 on a concrete sorted object. -/
theorem object_rendering_sorted_deterministic_witness :
    displayV (.Object [("a", .Boolean true), ("b", .Null)]) =
      displayV (.Object [("a", .Boolean true), ("b", .Null)]) :=
  object_rendering_sorted_deterministic.2.1 _ _ (by decide) (by decide) (fun _ => rfl)

end AsyncGraphql
